import Mathlib

set_option maxRecDepth 1000000

/-!
Verification of the two filesystem discovery caches of the `launchedit`
repository: the icon resolution cache (`src/xdghelp.rs`, `IconCache`) and the
MIME description cache (`src/mimelist.rs`, `MimeCache`).

The embedding is shallow: Rust `HashMap` is modelled by an association list
(`mget` / `mput` / `morInsert` mirror `get` / `insert` / `entry(..).or_insert`),
paths are lists of components, the filesystem is an inductive tree, and the
ambient environment (locale list, env vars, file contents) is passed
explicitly.  External library calls (`roxmltree::Document::parse`,
`fs::read_to_string`, `fs::read_dir`) are modelled by `Option`-valued inputs:
`none` is the failure the source absorbs with `if let Ok(..)`.
-/

namespace Launchedit

/-- Model of `HashMap::get`: the value of the first binding of `k`, if any. -/
def mget {α : Type} (m : List (String × α)) (k : String) : Option α :=
  (m.find? (fun p => p.1 == k)).map (fun p => p.2)

/-- Model of `HashMap::insert` (overwrite semantics, used by the alias table). -/
def mput {α : Type} (m : List (String × α)) (k : String) (v : α) : List (String × α) :=
  (m.filter (fun p => p.1 != k)) ++ [(k, v)]

/-- Model of `map.entry(k).or_insert(v)`: insert only when `k` is unbound. -/
def morInsert {α : Type} (m : List (String × α)) (k : String) (v : α) : List (String × α) :=
  match mget m k with
  | some _ => m
  | none => m ++ [(k, v)]

/-- Model of Rust `str::trim` on a character list. -/
def trimChars (l : List Char) : List Char :=
  ((l.dropWhile Char.isWhitespace).reverse.dropWhile Char.isWhitespace).reverse

/-- Model of Rust `str::trim`. -/
def rustTrim (s : String) : String :=
  String.mk (trimChars s.data)

/-- Model of Rust `str::split_once(char::is_whitespace)`: split at the first
whitespace character, which is dropped; `none` when no whitespace occurs. -/
def splitOnceWsChars : List Char → Option (List Char × List Char)
  | [] => none
  | c :: cs =>
    if c.isWhitespace then some ([], cs)
    else (splitOnceWsChars cs).map (fun p => (c :: p.1, p.2))

/-- String wrapper for `splitOnceWsChars`. -/
def split_once_ws (s : String) : Option (String × String) :=
  (splitOnceWsChars s.data).map (fun p => (String.mk p.1, String.mk p.2))

/-- One line of the alias-file loop of `MimeCache::get_mime_aliases`
(`src/mimelist.rs` lines 119-127): trim, skip blank and `#` lines, then
`split_once` into `(alias, canon)` and `aliases.insert(canon, alias)` —
the map is keyed by the second column, its value is the first column. -/
def aliasLineStep (aliases : List (String × String)) (line : String) :
    List (String × String) :=
  let trimmed := rustTrim line
  if trimmed.data.isEmpty || trimmed.data.head? == some '#' then aliases
  else
    match split_once_ws trimmed with
    | some (al, canon) => mput aliases canon al
    | none => aliases

/-- Model of `MimeCache::get_mime_aliases`: each candidate path's open result
is an `Option` over the file's lines (`none` = `File::open` failed, the file
contributes nothing). -/
def get_mime_aliases (files : List (Option (List String))) : List (String × String) :=
  files.foldl
    (fun acc f =>
      match f with
      | none => acc
      | some lines => lines.foldl aliasLineStep acc)
    []

/-- A `<comment>` child of a `mime-type` element: the optional `xml:lang`
attribute and the text content (`child.text().unwrap_or("")`). -/
structure MimeComment where
  lang : Option String
  text : String
deriving DecidableEq

/-- A `mime-type` element of a parsed MIME package document: the optional
`type` attribute and the `comment` children in document order. -/
structure MimeNode where
  typeAttr : Option String
  comments : List MimeComment
deriving DecidableEq

/-- A directory entry seen by `MimeCache::scan`: `ext` is
`path.extension().and_then(to_str)`, `doc` the combined result of
`fs::read_to_string` and `roxmltree::Document::parse` (`none` = either
failed), as the list of `mime-type` descendants in document order. -/
structure MimeEntry where
  ext : Option String
  doc : Option (List MimeNode)
deriving DecidableEq

/-- State of the comment-selection loop of `MimeCache::scan`
(`src/mimelist.rs` lines 162-164). -/
structure CommentState where
  best_score : Option Nat
  best_text : Option String
  fallback_unlocalized : Option String
deriving DecidableEq

/-- One iteration of the comment loop (`src/mimelist.rs` lines 166-194):
trim the text, skip if empty; for a localized comment whose language occurs
in the preference list at position `pos`, keep the old best when
`existing_pos <= pos`, otherwise record `pos`; for an unlocalized comment
overwrite the fallback. -/
def considerComment (langs : List String) (st : CommentState) (c : MimeComment) :
    CommentState :=
  let txt := rustTrim c.text
  if txt.data.isEmpty then st
  else
    match c.lang with
    | some lang_attr =>
      match langs.findIdx? (fun l => l == lang_attr) with
      | some posn =>
        match st.best_score with
        | some existing_pos =>
          if existing_pos ≤ posn then st
          else { st with best_score := some posn, best_text := some txt }
        | none => { st with best_score := some posn, best_text := some txt }
      | none => st
    | none => { st with fallback_unlocalized := some txt }

/-- The description chosen for one `mime-type` element:
`best_text.or(fallback_unlocalized)` after folding the comment loop. -/
def chooseComment (langs : List String) (comments : List MimeComment) : Option String :=
  let st := comments.foldl (considerComment langs) ⟨none, none, none⟩
  match st.best_text with
  | some t => some t
  | none => st.fallback_unlocalized

/-- Processing of one `mime-type` node (`src/mimelist.rs` lines 151-208):
skip when the `type` attribute is missing or no description was chosen,
otherwise insert-if-absent under the type, and, when the alias table has an
entry for the type, insert-if-absent under the alias as well. -/
def processMimeNode (langs : List String) (aliases : List (String × String))
    (m : List (String × String)) (node : MimeNode) : List (String × String) :=
  match node.typeAttr with
  | none => m
  | some mime_type =>
    match chooseComment langs node.comments with
    | none => m
    | some desc =>
      let m1 := morInsert m mime_type desc
      match mget aliases mime_type with
      | some al => morInsert m1 al desc
      | none => m1

/-- Processing of one directory entry of `MimeCache::scan`: skipped unless
the extension is `xml` and the file reads and parses. -/
def processMimeEntry (langs : List String) (aliases : List (String × String))
    (m : List (String × String)) (e : MimeEntry) : List (String × String) :=
  if e.ext ≠ some "xml" then m
  else
    match e.doc with
    | none => m
    | some nodes => nodes.foldl (processMimeNode langs aliases) m

/-- The MIME description cache (`mime_descriptions` map). -/
structure MimeCache where
  mime_descriptions : List (String × String)
deriving DecidableEq

/-- Model of `MimeCache::lookup`. -/
def MimeCache.lookup (c : MimeCache) (name : String) : Option String :=
  mget c.mime_descriptions name

/-- Model of `MimeCache::scan`: `mime_descriptions.clear()` first, so the
prior cache contents are discarded; `langs` is the ambient locale preference
list, `aliasFiles` the alias-file open results, `dirs` the `read_dir` results
of the candidate package directories (`none` = unreadable directory). -/
def MimeCache.scan (_c : MimeCache) (langs : List String)
    (aliasFiles : List (Option (List String)))
    (dirs : List (Option (List MimeEntry))) : MimeCache :=
  let aliases := get_mime_aliases aliasFiles
  { mime_descriptions :=
      dirs.foldl
        (fun m d =>
          match d with
          | none => m
          | some entries => entries.foldl (processMimeEntry langs aliases) m)
        [] }

mutual

/-- A filesystem tree node: a regular file, a readable directory with named
children in enumeration order, or a directory whose `fs::read_dir` fails. -/
inductive FsNode where
  | file : FsNode
  | dir (entries : FsEntries) : FsNode
  | denied : FsNode

/-- A directory listing: named child nodes in enumeration order. -/
inductive FsEntries where
  | enil : FsEntries
  | econs (name : String) (node : FsNode) (rest : FsEntries) : FsEntries

end

/-- Build a directory listing from a list of named nodes. -/
def FsEntries.ofList : List (String × FsNode) → FsEntries
  | [] => .enil
  | (n, m) :: rest => .econs n m (FsEntries.ofList rest)

/-- Build a readable directory from a list of named nodes. -/
def FsNode.dirL (l : List (String × FsNode)) : FsNode :=
  .dir (.ofList l)

/-- The child of a directory listing under a name (first binding, as on a
real filesystem where names are unique). -/
def FsEntries.child : FsEntries → String → Option FsNode
  | .enil, _ => none
  | .econs name node rest, k => if name == k then some node else rest.child k

/-- The child of a node under a name; only readable directories have
children. -/
def FsNode.child (n : FsNode) (name : String) : Option FsNode :=
  match n with
  | .dir entries => entries.child name
  | _ => none

/-- Walk a component path down from a node. -/
def FsNode.resolve (n : FsNode) : List String → Option FsNode
  | [] => some n
  | c :: rest =>
    match n.child c with
    | some m => m.resolve rest
    | none => none

/-- Model of `fs::read_dir` at a component path: the entry list when the path
names a readable directory, otherwise `none`. -/
def readDir (fs : FsNode) (p : List String) : Option FsEntries :=
  match fs.resolve p with
  | some (.dir entries) => some entries
  | _ => none

/-- Index of the last `.` at position at least 1 in the character list, the
separator Rust's `Path::extension` / `file_stem` split at (a leading dot, as
in a hidden file, is not a separator). -/
def lastDotIdxAux : List Char → Nat → Option Nat
  | [], _ => none
  | c :: cs, i =>
    match lastDotIdxAux cs (i + 1) with
    | some j => some j
    | none => if c == '.' && i != 0 then some i else none

/-- Position of the extension separator of a file name, if any. -/
def lastDotIdx (l : List Char) : Option Nat :=
  lastDotIdxAux l 0

/-- Model of `Path::extension().and_then(to_str)` on a final file name. -/
def rust_extension (name : String) : Option String :=
  (lastDotIdx name.data).map (fun i => String.mk (name.data.drop (i + 1)))

/-- Model of `Path::file_stem().unwrap_or_default()` on a final file name. -/
def rust_file_stem (name : String) : String :=
  match lastDotIdx name.data with
  | some i => String.mk (name.data.take i)
  | none => name

/-- The icon cache: stem index and full-filename index, both mapping to the
path (as components) of the first file inserted under the key. -/
structure IconCache where
  by_name_no_ext : List (String × List String)
  by_full_name : List (String × List String)

/-- The extension allow-list of `IconCache::scan_dir` (`src/xdghelp.rs`
line 280). -/
def icon_exts : List String :=
  ["png", "svg", "xpm", "ico", "jpg", "jpeg"]

/-- The file branch of `IconCache::scan_dir` (`src/xdghelp.rs` lines
293-307): when the extension exists and is allow-listed, insert-if-absent
the full name and the stem into the two indexes. -/
def insertIcon (c : IconCache) (path : List String) (fname : String) : IconCache :=
  match rust_extension fname with
  | some ext =>
    if icon_exts.contains ext then
      { by_full_name := morInsert c.by_full_name fname path,
        by_name_no_ext := morInsert c.by_name_no_ext (rust_file_stem fname) path }
    else c
  | none => c

/-- The entry loop of `IconCache::scan_dir` (`src/xdghelp.rs` lines 285-308)
over a directory listing at `path`: recurse into subdirectories in order
(a denied directory's recursive call reads nothing and returns), index
regular files. -/
def scanEntries (path : List String) : FsEntries → IconCache → IconCache
  | .enil, c => c
  | .econs name FsNode.file rest, c =>
      scanEntries path rest (insertIcon c (path ++ [name]) name)
  | .econs name (FsNode.dir es) rest, c =>
      scanEntries path rest (scanEntries (path ++ [name]) es c)
  | .econs _ FsNode.denied rest, c =>
      scanEntries path rest c

/-- Model of `IconCache::scan_dir` on a root path: `fs::read_dir` failure
returns the cache unchanged. -/
def IconCache.scan_dir (c : IconCache) (fs : FsNode) (root : List String) : IconCache :=
  match readDir fs root with
  | none => c
  | some entries => scanEntries root entries c

/-- The fixed theme list of `IconCache` (`src/xdghelp.rs` line 211). -/
def THEMES : List String :=
  ["cosmic", "Adwaita", "hicolor"]

/-- The fixed size list of `IconCache` (`src/xdghelp.rs` lines 212-214). -/
def SIZES : List String :=
  ["scalable", "512x512", "256x256", "128x128", "64x64", "48x48", "32x32", "24x24", "16x16"]

/-- The fixed context list of `IconCache` (`src/xdghelp.rs` line 215). -/
def CONTEXTS : List String :=
  ["apps", "places", "mimetypes", "actions"]

/-- The ambient environment of `IconCache::icon_search_dirs`, with env-var
paths already split into components (`XDG_DATA_DIRS` already colon-split). -/
structure IconEnv where
  xdg_data_home : Option (List String)
  home_dir : Option (List String)
  xdg_data_dirs : Option (List (List String))
  flatpak : Bool

/-- Model of `IconCache::icon_search_dirs` (`src/xdghelp.rs` lines 250-277):
user data icons dir, then each `XDG_DATA_DIRS` entry's icons dir (or the two
conventional system dirs), then, when sandboxed, the two host mounts, then
the pixmaps dir. -/
def icon_search_dirs (e : IconEnv) : List (List String) :=
  (match e.xdg_data_home with
   | some home => [home ++ ["icons"]]
   | none =>
     match e.home_dir with
     | some home => [home ++ [".local", "share", "icons"]]
     | none => [])
  ++ (match e.xdg_data_dirs with
      | some ps => ps.map (fun p => p ++ ["icons"])
      | none => [["usr", "local", "share", "icons"], ["usr", "share", "icons"]])
  ++ (if e.flatpak then
        [["run", "host", "usr", "share", "icons"], ["run", "host", "share", "icons"]]
      else [])
  ++ [["usr", "share", "pixmaps"]]

/-- The base-directory loop body of `IconCache::scan` (`src/xdghelp.rs`
lines 221-231): the theme by size by context cross product, then
`base/pixmaps`. -/
def scanBase (fs : FsNode) (c : IconCache) (base : List String) : IconCache :=
  let c1 := THEMES.foldl
    (fun c theme =>
      SIZES.foldl
        (fun c size =>
          CONTEXTS.foldl
            (fun c ctx => c.scan_dir fs (base ++ [theme, size, ctx]))
            c)
        c)
    c
  c1.scan_dir fs (base ++ ["pixmaps"])

/-- Model of `IconCache::scan`: the prior maps are NOT cleared, the scan
inserts into the existing indexes. -/
def IconCache.scan (c : IconCache) (e : IconEnv) (fs : FsNode) : IconCache :=
  (icon_search_dirs e).foldl (scanBase fs) c

/-- Model of `IconCache::lookup` (`src/xdghelp.rs` lines 239-248): the
full-filename index first, then the stem index, then `none`. -/
def IconCache.lookup (c : IconCache) (name : String) : Option (List String) :=
  match mget c.by_full_name name with
  | some path => some path
  | none =>
    match mget c.by_name_no_ext name with
    | some path => some path
    | none => none

/-- The candidacy score of one `comment` element: the preference-list
position of its language, when the trimmed text is non-empty, the comment is
localized and its language occurs in the list; `none` otherwise (an
unlocalized or empty or unmatched comment never scores). -/
def commentScore (langs : List String) (c : MimeComment) : Option Nat :=
  if (rustTrim c.text).data.isEmpty then none
  else
    match c.lang with
    | some lang_attr => langs.findIdx? (fun l => l == lang_attr)
    | none => none

/-- Minimum of a list of scores, `none` for the empty list. -/
def scoresMin : List Nat → Option Nat
  | [] => none
  | x :: xs =>
    match scoresMin xs with
    | none => some x
    | some m => some (min x m)

/-- Minimum of two optional scores, preferring the present one. -/
def omin : Option Nat → Option Nat → Option Nat
  | none, b => b
  | some a, none => some a
  | some a, some b => some (min a b)

/-- The trimmed text of the first comment in the list whose score is `m`. -/
def firstMinText (langs : List String) (l : List MimeComment) (m : Nat) : Option String :=
  (l.find? (fun c => commentScore langs c == some m)).map (fun c => rustTrim c.text)

/-- How the best-text slot of the comment loop evolves when a candidate with
score `newScore` and text `newText` arrives: only a present, strictly
smaller score displaces the current best. -/
def textUpd (oldScore : Option Nat) (oldText : Option String) (newScore : Option Nat)
    (newText : Option String) : Option String :=
  match newScore with
  | none => oldText
  | some p =>
    match oldScore with
    | none => newText
    | some e => if p < e then newText else oldText

/-- Whether a file name would be indexed by `IconCache::scan_dir`: it has an
extension and the extension is allow-listed. -/
def goodIconName (name : String) : Bool :=
  match rust_extension name with
  | some e => icon_exts.contains e
  | none => false

/-- No file anywhere in the listing (recursively) would be indexed by
`IconCache::scan_dir`. -/
def FsEntries.noIdx : FsEntries → Bool
  | .enil => true
  | .econs name FsNode.file rest => !goodIconName name && rest.noIdx
  | .econs _ (FsNode.dir es) rest => es.noIdx && rest.noIdx
  | .econs _ FsNode.denied rest => rest.noIdx

/-- No file anywhere under the node would be indexed by
`IconCache::scan_dir`. -/
def FsNode.noIdx : FsNode → Bool
  | .dir es => es.noIdx
  | _ => true

/-- Every entry of the listing is a plain file (the listing has no
subdirectories at all). -/
def FsEntries.allFiles : FsEntries → Bool
  | .enil => true
  | .econs _ FsNode.file rest => rest.allFiles
  | .econs _ _ _ => false

/-- The directory at `base` (when it resolves to a readable directory) is
flat: all of its children are plain files. -/
def flatAt (fs : FsNode) (base : List String) : Bool :=
  match fs.resolve base with
  | some (.dir es) => es.allFiles
  | _ => true

/-- A concrete environment: `XDG_DATA_HOME` is `/b`, `XDG_DATA_DIRS` is set
but empty, not sandboxed; its search dirs are `b/icons` then the pixmaps
dir. -/
def envB : IconEnv :=
  ⟨some ["b"], none, some [], false⟩

/-- A concrete environment with no user data dir and an empty
`XDG_DATA_DIRS`: the only search dir is the pixmaps dir
`/usr/share/pixmaps`. -/
def envP : IconEnv :=
  ⟨none, none, some [], false⟩

/-- A concrete environment with two base dirs before the pixmaps dir:
`b1/icons` (user data dir) then `b2/icons` (from `XDG_DATA_DIRS`). -/
def envB2 : IconEnv :=
  ⟨some ["b1"], none, some [["b2"]], false⟩

/-- A filesystem holding exactly `b/icons/cosmic/scalable/apps/foo.png`. -/
def fsFoo : FsNode :=
  .dirL [("b", .dirL [("icons", .dirL [("cosmic", .dirL [("scalable", .dirL [("apps",
    .dirL [("foo.png", .file)])])])])])]

/-- A filesystem where both `b1/icons` and `b2/icons` hold a
`cosmic/scalable/apps/foo.png`. -/
def fsFoo2 : FsNode :=
  .dirL
    [("b1", .dirL [("icons", .dirL [("cosmic", .dirL [("scalable", .dirL [("apps",
       .dirL [("foo.png", .file)])])])])]),
     ("b2", .dirL [("icons", .dirL [("cosmic", .dirL [("scalable", .dirL [("apps",
       .dirL [("foo.png", .file)])])])])])]

/-! Helper lemmas about the association-list map model. -/

theorem mget_nil {α : Type} (k : String) : mget ([] : List (String × α)) k = none := by
  simp [mget]

theorem mget_cons {α : Type} (p : String × α) (rest : List (String × α)) (k : String) :
    mget (p :: rest) k = if p.1 == k then some p.2 else mget rest k := by
  by_cases hp : (p.1 == k) = true <;> simp [mget, List.find?_cons, hp]

theorem mget_append_some {α : Type} {m : List (String × α)} {k : String} {v : α}
    (h : mget m k = some v) (m' : List (String × α)) :
    mget (m ++ m') k = some v := by
  induction m with
  | nil => simp [mget] at h
  | cons p rest ih =>
    by_cases hp : (p.1 == k) = true
    · rw [mget_cons, if_pos hp] at h
      rw [List.cons_append, mget_cons, if_pos hp]
      exact h
    · rw [mget_cons, if_neg hp] at h
      rw [List.cons_append, mget_cons, if_neg hp]
      exact ih h

theorem mget_append_none {α : Type} {m : List (String × α)} {k : String}
    (h : mget m k = none) (m' : List (String × α)) :
    mget (m ++ m') k = mget m' k := by
  induction m with
  | nil => simp
  | cons p rest ih =>
    by_cases hp : (p.1 == k) = true
    · rw [mget_cons, if_pos hp] at h
      exact absurd h (by simp)
    · rw [mget_cons, if_neg hp] at h
      rw [List.cons_append, mget_cons, if_neg hp]
      exact ih h

theorem mget_morInsert_of_some {α : Type} {m : List (String × α)} {k : String} {v : α}
    (h : mget m k = some v) (k' : String) (v' : α) :
    mget (morInsert m k' v') k = some v := by
  unfold morInsert
  cases hk : mget m k' with
  | some w => exact h
  | none => exact mget_append_some h _

theorem mget_morInsert_self_of_none {α : Type} {m : List (String × α)} {k : String}
    (h : mget m k = none) (v : α) :
    mget (morInsert m k v) k = some v := by
  unfold morInsert
  rw [h]
  rw [mget_append_none h]
  simp [mget, List.find?_cons]

/-- Generic preservation of a predicate along a left fold. -/
theorem foldl_pres {α β : Type} (P : α → Prop) (f : α → β → α)
    (hf : ∀ a b, P a → P (f a b)) :
    ∀ (l : List β) (a : α), P a → P (l.foldl f a) := by
  intro l
  induction l with
  | nil => intro a ha; exact ha
  | cons b rest ih =>
    intro a ha
    exact ih _ (hf a b ha)

/-! Preservation of existing index bindings through the icon scan
(the operational content of the insert-if-absent policy). -/

theorem insertIcon_pres_full {c : IconCache} {k : String} {v : List String}
    (h : mget c.by_full_name k = some v) (path : List String) (fname : String) :
    mget (insertIcon c path fname).by_full_name k = some v := by
  unfold insertIcon
  split
  · split
    · exact mget_morInsert_of_some h _ _
    · exact h
  · exact h

theorem insertIcon_pres_stem {c : IconCache} {k : String} {v : List String}
    (h : mget c.by_name_no_ext k = some v) (path : List String) (fname : String) :
    mget (insertIcon c path fname).by_name_no_ext k = some v := by
  unfold insertIcon
  split
  · split
    · exact mget_morInsert_of_some h _ _
    · exact h
  · exact h

theorem scanEntries_pres_full {k : String} {v : List String} (path : List String)
    (l : FsEntries) (c : IconCache) :
    mget c.by_full_name k = some v →
    mget (scanEntries path l c).by_full_name k = some v := by
  induction path, l, c using scanEntries.induct with
  | case1 path c =>
    intro h
    rw [scanEntries]
    exact h
  | case2 path name rest c ih =>
    intro h
    rw [scanEntries]
    exact ih (insertIcon_pres_full h _ _)
  | case3 path name es rest c ih1 ih2 =>
    intro h
    rw [scanEntries]
    exact ih2 (ih1 h)
  | case4 path name rest c ih =>
    intro h
    rw [scanEntries]
    exact ih h

theorem scanEntries_pres_stem {k : String} {v : List String} (path : List String)
    (l : FsEntries) (c : IconCache) :
    mget c.by_name_no_ext k = some v →
    mget (scanEntries path l c).by_name_no_ext k = some v := by
  induction path, l, c using scanEntries.induct with
  | case1 path c =>
    intro h
    rw [scanEntries]
    exact h
  | case2 path name rest c ih =>
    intro h
    rw [scanEntries]
    exact ih (insertIcon_pres_stem h _ _)
  | case3 path name es rest c ih1 ih2 =>
    intro h
    rw [scanEntries]
    exact ih2 (ih1 h)
  | case4 path name rest c ih =>
    intro h
    rw [scanEntries]
    exact ih h

theorem scan_dir_pres_full {c : IconCache} {k : String} {v : List String}
    (h : mget c.by_full_name k = some v) (fs : FsNode) (root : List String) :
    mget (c.scan_dir fs root).by_full_name k = some v := by
  unfold IconCache.scan_dir
  split
  · exact h
  · exact scanEntries_pres_full _ _ _ h

theorem scan_dir_pres_stem {c : IconCache} {k : String} {v : List String}
    (h : mget c.by_name_no_ext k = some v) (fs : FsNode) (root : List String) :
    mget (c.scan_dir fs root).by_name_no_ext k = some v := by
  unfold IconCache.scan_dir
  split
  · exact h
  · exact scanEntries_pres_stem _ _ _ h

theorem scanBase_pres_full {k : String} {v : List String} (fs : FsNode)
    (c : IconCache) (base : List String)
    (h : mget c.by_full_name k = some v) :
    mget (scanBase fs c base).by_full_name k = some v := by
  unfold scanBase
  refine scan_dir_pres_full ?_ fs _
  refine foldl_pres (fun c : IconCache => mget c.by_full_name k = some v) _ ?_ _ _ h
  intro a theme ha
  refine foldl_pres (fun c : IconCache => mget c.by_full_name k = some v) _ ?_ _ _ ha
  intro a size ha
  refine foldl_pres (fun c : IconCache => mget c.by_full_name k = some v) _ ?_ _ _ ha
  intro a ctx ha
  exact scan_dir_pres_full ha fs _

theorem scanBase_pres_stem {k : String} {v : List String} (fs : FsNode)
    (c : IconCache) (base : List String)
    (h : mget c.by_name_no_ext k = some v) :
    mget (scanBase fs c base).by_name_no_ext k = some v := by
  unfold scanBase
  refine scan_dir_pres_stem ?_ fs _
  refine foldl_pres (fun c : IconCache => mget c.by_name_no_ext k = some v) _ ?_ _ _ h
  intro a theme ha
  refine foldl_pres (fun c : IconCache => mget c.by_name_no_ext k = some v) _ ?_ _ _ ha
  intro a size ha
  refine foldl_pres (fun c : IconCache => mget c.by_name_no_ext k = some v) _ ?_ _ _ ha
  intro a ctx ha
  exact scan_dir_pres_stem ha fs _

theorem scan_pres_full {k : String} {v : List String} (e : IconEnv) (fs : FsNode)
    (c : IconCache) (h : mget c.by_full_name k = some v) :
    mget (c.scan e fs).by_full_name k = some v := by
  unfold IconCache.scan
  exact foldl_pres (fun c : IconCache => mget c.by_full_name k = some v) _
    (fun a b ha => scanBase_pres_full fs a b ha) _ _ h

theorem scan_pres_stem {k : String} {v : List String} (e : IconEnv) (fs : FsNode)
    (c : IconCache) (h : mget c.by_name_no_ext k = some v) :
    mget (c.scan e fs).by_name_no_ext k = some v := by
  unfold IconCache.scan
  exact foldl_pres (fun c : IconCache => mget c.by_name_no_ext k = some v) _
    (fun a b ha => scanBase_pres_stem fs a b ha) _ _ h

theorem lookup_of_full {c : IconCache} {k : String} {v : List String}
    (h : mget c.by_full_name k = some v) : c.lookup k = some v := by
  unfold IconCache.lookup
  rw [h]

theorem foldl_fixed {α β : Type} (f : α → β → α) (l : List β) (a : α)
    (h : ∀ x b, b ∈ l → f x b = x) : l.foldl f a = a := by
  induction l generalizing a with
  | nil => rfl
  | cons b rest ih =>
    rw [List.foldl_cons, h a b (by simp)]
    exact ih a (fun x e he => h x e (by simp [he]))

theorem resolve_append (p q : List String) (n : FsNode) :
    n.resolve (p ++ q) = (n.resolve p).bind (fun m => m.resolve q) := by
  induction p generalizing n with
  | nil => simp [FsNode.resolve]
  | cons c rest ih =>
    rw [List.cons_append]
    show (match n.child c with
          | some m => m.resolve (rest ++ q)
          | none => none)
        = (match n.child c with
          | some m => m.resolve rest
          | none => none).bind (fun m => m.resolve q)
    cases hc : n.child c with
    | none => rfl
    | some m => exact ih m

/-! The claim theorems. -/

/-- Claim C3: `IconCache::lookup` prefers the full-filename index — when
`name` is bound there, lookup returns that path (even when the stem index
binds the same name to a different path); when the full-filename index has
no binding for `name`, lookup returns exactly the stem index's result
(so `none` when neither index binds `name`). -/
theorem lookup_precedence (c : IconCache) (name : String) :
    (∀ p, mget c.by_full_name name = some p → c.lookup name = some p) ∧
    (mget c.by_full_name name = none →
      c.lookup name = mget c.by_name_no_ext name) := by
  constructor
  · intro p h
    exact lookup_of_full h
  · intro h
    unfold IconCache.lookup
    rw [h]
    cases hs : mget c.by_name_no_ext name <;> rfl

/-- Witness for C3 at a cache whose two indexes bind "foo" to different
paths: the full-filename index wins; and at a cache with only a stem
binding: the stem index is used. -/
theorem lookup_precedence_witness :
    IconCache.lookup ⟨[("foo", ["stem", "foo.png"])], [("foo", ["full", "foo"])]⟩ "foo"
      = some ["full", "foo"] ∧
    IconCache.lookup ⟨[("foo", ["stem", "foo.png"])], []⟩ "foo"
      = some ["stem", "foo.png"] := by
  constructor
  · exact (lookup_precedence ⟨[("foo", ["stem", "foo.png"])], [("foo", ["full", "foo"])]⟩
      "foo").1 ["full", "foo"] (by decide)
  · rw [(lookup_precedence ⟨[("foo", ["stem", "foo.png"])], []⟩ "foo").2 (by decide)]
    decide

/-- Counterexample to claim C2: `IconCache::scan` does not clear its maps.
After scanning a filesystem holding `b/icons/cosmic/scalable/apps/foo.png`
and then re-scanning an empty filesystem (in which a scan from an empty
cache finds nothing, third conjunct), `lookup "foo.png"` still returns the
old path (first conjunct) where the claim predicts `none`. -/
theorem scan_rescan_cex :
    (IconCache.scan (IconCache.scan ⟨[], []⟩ envB fsFoo) envB (.dirL [])).lookup "foo.png"
      = some ["b", "icons", "cosmic", "scalable", "apps", "foo.png"] ∧
    (IconCache.scan ⟨[], []⟩ envB fsFoo).lookup "foo.png"
      = some ["b", "icons", "cosmic", "scalable", "apps", "foo.png"] ∧
    (IconCache.scan ⟨[], []⟩ envB (.dirL [])).lookup "foo.png" = none := by
  refine ⟨by decide, by decide, by decide⟩

/-- Claim C2 as amended: `MimeCache::scan` clears first, so its result is
independent of the prior cache state (a second scan equals a single scan of
the second filesystem state); `IconCache::scan` does NOT clear — it merges:
every binding present in either index before a scan is still present
unchanged afterwards, so entries from a first scan survive a second scan
even when absent from the new filesystem state. -/
theorem scan_rebuild_amended :
    (∀ (c c' : MimeCache) (langs : List String)
       (aliasFiles : List (Option (List String)))
       (dirs : List (Option (List MimeEntry))),
      MimeCache.scan c langs aliasFiles dirs = MimeCache.scan c' langs aliasFiles dirs) ∧
    (∀ (c : IconCache) (e : IconEnv) (fs : FsNode) (k : String) (v : List String),
      (mget c.by_full_name k = some v → mget (c.scan e fs).by_full_name k = some v) ∧
      (mget c.by_name_no_ext k = some v → mget (c.scan e fs).by_name_no_ext k = some v)) := by
  constructor
  · intro c c' langs aliasFiles dirs
    rfl
  · intro c e fs k v
    exact ⟨fun h => scan_pres_full e fs c h, fun h => scan_pres_stem e fs c h⟩

/-- Witness for the amended C2: a pre-existing full-name binding survives a
scan of an empty filesystem. -/
theorem scan_rebuild_amended_witness :
    mget ((IconCache.scan ⟨[("k", ["p"])], [("k.png", ["q"])]⟩ envB (.dirL [])).by_full_name)
      "k.png" = some ["q"] :=
  (scan_rebuild_amended.2 ⟨[("k", ["p"])], [("k.png", ["q"])]⟩ envB (.dirL [])
    "k.png" ["q"]).1 (by decide)

/-- Claim C8: the search-dir list starts with the user data icons dir (when
`XDG_DATA_HOME` is set) and ends with the pixmaps dir; the scan folds the
bases in list order with insert-if-absent, so a name bound after scanning a
prefix of the bases keeps its binding, in both indexes, after the remaining
bases are scanned; concretely, when `b1/icons` and `b2/icons` (in that
priority order) both hold `cosmic/scalable/apps/foo.png`, lookup resolves to
the `b1` copy. -/
theorem first_base_wins :
    (∀ (e : IconEnv) (h : List String), e.xdg_data_home = some h →
      (icon_search_dirs e).head? = some (h ++ ["icons"])) ∧
    (∀ e : IconEnv, (icon_search_dirs e).getLast? = some ["usr", "share", "pixmaps"]) ∧
    (∀ (fs : FsNode) (bs1 bs2 : List (List String)) (c : IconCache) (k : String)
       (v : List String),
      (mget (bs1.foldl (scanBase fs) c).by_full_name k = some v →
        mget ((bs1 ++ bs2).foldl (scanBase fs) c).by_full_name k = some v) ∧
      (mget (bs1.foldl (scanBase fs) c).by_name_no_ext k = some v →
        mget ((bs1 ++ bs2).foldl (scanBase fs) c).by_name_no_ext k = some v)) ∧
    (IconCache.scan ⟨[], []⟩ envB2 fsFoo2).lookup "foo.png"
      = some ["b1", "icons", "cosmic", "scalable", "apps", "foo.png"] := by
  refine ⟨?_, ?_, ?_, by decide⟩
  · intro e h he
    unfold icon_search_dirs
    rw [he]
    rfl
  · intro e
    unfold icon_search_dirs
    rw [List.getLast?_append]
    rfl
  · intro fs bs1 bs2 c k v
    rw [List.foldl_append]
    constructor
    · intro h
      exact foldl_pres (fun c : IconCache => mget c.by_full_name k = some v) _
        (fun a b ha => scanBase_pres_full fs a b ha) _ _ h
    · intro h
      exact foldl_pres (fun c : IconCache => mget c.by_name_no_ext k = some v) _
        (fun a b ha => scanBase_pres_stem fs a b ha) _ _ h

/-- Witness for C8: the user-dir head fact at `envB` and the prefix-wins
fact at a one-base prefix already binding "foo.png". -/
theorem first_base_wins_witness :
    (icon_search_dirs envB).head? = some (["b"] ++ ["icons"]) ∧
    mget (([["b", "icons"]] ++ [["b2", "icons"]]).foldl (scanBase fsFoo) ⟨[], []⟩).by_full_name
      "foo.png" = some ["b", "icons", "cosmic", "scalable", "apps", "foo.png"] := by
  constructor
  · exact (first_base_wins.1 envB ["b"] (by rfl))
  · exact (first_base_wins.2.2.1 fsFoo [["b", "icons"]] [["b2", "icons"]] ⟨[], []⟩
      "foo.png" ["b", "icons", "cosmic", "scalable", "apps", "foo.png"]).1 (by decide)

/-- Claim C9: scanning never propagates an error. For `MimeCache::scan` an
unreadable package directory contributes nothing (dropping it from the
directory list leaves the result unchanged), an unopenable alias file
likewise, and a package file that fails to read or parse as XML is skipped
without affecting other files of the same directory — concretely, a
malformed XML file listed before a well-formed one does not prevent the
latter's description from loading. For `IconCache` an unreadable scan root
leaves the cache unchanged and a denied subdirectory entry is skipped. -/
theorem scan_error_tolerant :
    (∀ (c : MimeCache) (langs : List String) (af : List (Option (List String)))
       (d1 d2 : List (Option (List MimeEntry))),
      MimeCache.scan c langs af (d1 ++ none :: d2)
        = MimeCache.scan c langs af (d1 ++ d2)) ∧
    (∀ (f1 f2 : List (Option (List String))),
      get_mime_aliases (f1 ++ none :: f2) = get_mime_aliases (f1 ++ f2)) ∧
    (∀ (c : IconCache) (fs : FsNode) (root : List String),
      readDir fs root = none → c.scan_dir fs root = c) ∧
    (∀ (path : List String) (name : String) (rest : FsEntries) (c : IconCache),
      scanEntries path (.econs name .denied rest) c = scanEntries path rest c) ∧
    (MimeCache.scan ⟨[]⟩ [] []
        [some [⟨some "xml", none⟩,
               ⟨some "xml", some [⟨some "text/plain", [⟨none, "Plain text"⟩]⟩]⟩]]).lookup
      "text/plain" = some "Plain text" := by
  refine ⟨?_, ?_, ?_, ?_, by decide⟩
  · intro c langs af d1 d2
    unfold MimeCache.scan
    simp only [List.foldl_append, List.foldl_cons]
  · intro f1 f2
    unfold get_mime_aliases
    simp only [List.foldl_append, List.foldl_cons]
  · intro c fs root h
    rw [IconCache.scan_dir, h]
  · intro path name rest c
    rw [scanEntries]

/-- Witness for C9: dropping a concrete unreadable directory, a concrete
unopenable alias file, and scanning a concrete unreadable icon root. -/
theorem scan_error_tolerant_witness :
    MimeCache.scan ⟨[]⟩ [] [] [none] = MimeCache.scan ⟨[]⟩ [] [] [] ∧
    get_mime_aliases [none] = get_mime_aliases [] ∧
    IconCache.scan_dir ⟨[], []⟩ (.dirL []) ["nowhere"] = ⟨[], []⟩ := by
  refine ⟨?_, ?_, ?_⟩
  · exact scan_error_tolerant.1 ⟨[]⟩ [] [] [] []
  · exact scan_error_tolerant.2.1 [] []
  · exact scan_error_tolerant.2.2.1 ⟨[], []⟩ (.dirL []) ["nowhere"] rfl

theorem insertIcon_noGood {name : String} (h : goodIconName name = false)
    (c : IconCache) (path : List String) : insertIcon c path name = c := by
  unfold insertIcon
  cases hx : rust_extension name with
  | none => rfl
  | some e =>
    have h2 : icon_exts.contains e = false := by
      unfold goodIconName at h
      rw [hx] at h
      exact h
    have h3 : ¬ (icon_exts.contains e = true) := by
      rw [h2]
      exact Bool.false_ne_true
    dsimp only
    rw [if_neg h3]

theorem scanEntries_noIdx : ∀ (path : List String) (l : FsEntries) (c : IconCache),
    l.noIdx = true → scanEntries path l c = c := by
  intro path l c
  induction path, l, c using scanEntries.induct with
  | case1 path c =>
    intro _
    rw [scanEntries]
  | case2 path name rest c ih =>
    intro h
    simp only [FsEntries.noIdx, Bool.and_eq_true, Bool.not_eq_true'] at h
    rw [scanEntries]
    rw [insertIcon_noGood h.1]
    rw [insertIcon_noGood h.1] at ih
    exact ih h.2
  | case3 path name es rest c ih1 ih2 =>
    intro h
    simp only [FsEntries.noIdx, Bool.and_eq_true] at h
    rw [scanEntries, ih1 h.1]
    rw [ih1 h.1] at ih2
    exact ih2 h.2
  | case4 path name rest c ih =>
    intro h
    simp only [FsEntries.noIdx] at h
    rw [scanEntries]
    exact ih h

theorem noIdx_child : ∀ (es : FsEntries) (k : String), es.noIdx = true →
    ∀ m, es.child k = some m → m.noIdx = true := by
  intro es k
  induction es, k using FsEntries.child.induct with
  | case1 k =>
    intro _ m hm
    exact absurd hm (by simp [FsEntries.child])
  | case2 name node rest k hk =>
    intro h m hm
    simp only [FsEntries.child, if_pos hk, Option.some.injEq] at hm
    subst hm
    cases node with
    | file => rfl
    | denied => rfl
    | dir es2 =>
      simp only [FsEntries.noIdx, Bool.and_eq_true] at h
      simp only [FsNode.noIdx]
      exact h.1
  | case3 name node rest k hk ih =>
    intro h m hm
    simp only [FsEntries.child, if_neg hk] at hm
    refine ih ?_ m hm
    cases node with
    | file =>
      simp only [FsEntries.noIdx, Bool.and_eq_true] at h
      exact h.2
    | denied =>
      simpa only [FsEntries.noIdx] using h
    | dir es2 =>
      simp only [FsEntries.noIdx, Bool.and_eq_true] at h
      exact h.2

theorem allFiles_child : ∀ (es : FsEntries) (k : String), es.allFiles = true →
    ∀ m, es.child k = some m → m = FsNode.file := by
  intro es k
  induction es, k using FsEntries.child.induct with
  | case1 k =>
    intro _ m hm
    exact absurd hm (by simp [FsEntries.child])
  | case2 name node rest k hk =>
    intro h m hm
    simp only [FsEntries.child, if_pos hk, Option.some.injEq] at hm
    subst hm
    cases node with
    | file => rfl
    | denied => simp [FsEntries.allFiles] at h
    | dir es2 => simp [FsEntries.allFiles] at h
  | case3 name node rest k hk ih =>
    intro h m hm
    simp only [FsEntries.child, if_neg hk] at hm
    refine ih ?_ m hm
    cases node with
    | file => simpa only [FsEntries.allFiles] using h
    | denied => simp [FsEntries.allFiles] at h
    | dir es2 => simp [FsEntries.allFiles] at h

theorem resolve_cons (n : FsNode) (x : String) (rest : List String) :
    n.resolve (x :: rest)
      = (match n.child x with
         | some m => m.resolve rest
         | none => none) := rfl

theorem noIdx_resolve : ∀ (p : List String) (n : FsNode), n.noIdx = true →
    ∀ m, n.resolve p = some m → m.noIdx = true := by
  intro p
  induction p with
  | nil =>
    intro n hn m hm
    simp only [FsNode.resolve] at hm
    injection hm with h
    subst h
    exact hn
  | cons x rest ih =>
    intro n hn m hm
    rw [resolve_cons] at hm
    cases hc : n.child x with
    | none =>
      rw [hc] at hm
      exact absurd hm (by simp)
    | some n2 =>
      rw [hc] at hm
      refine ih n2 ?_ m hm
      cases n with
      | file => exact absurd hc (by simp [FsNode.child])
      | denied => exact absurd hc (by simp [FsNode.child])
      | dir es =>
        exact noIdx_child es x (by simpa [FsNode.noIdx] using hn) n2
          (by simpa [FsNode.child] using hc)

theorem scan_dir_noIdx {fs : FsNode} (hn : fs.noIdx = true) (c : IconCache)
    (root : List String) : c.scan_dir fs root = c := by
  rw [IconCache.scan_dir]
  cases hr : readDir fs root with
  | none => rfl
  | some es =>
    refine scanEntries_noIdx root es c ?_
    rw [readDir] at hr
    cases hres : fs.resolve root with
    | none =>
      rw [hres] at hr
      exact absurd hr (by simp)
    | some n =>
      rw [hres] at hr
      cases n with
      | file => exact absurd hr (by simp)
      | denied => exact absurd hr (by simp)
      | dir entries =>
        have h2 : entries = es := by
          injection hr
        subst h2
        have := noIdx_resolve root fs hn _ hres
        simpa only [FsNode.noIdx] using this

theorem scanBase_noIdx {fs : FsNode} (hn : fs.noIdx = true) (a : IconCache)
    (base : List String) : scanBase fs a base = a := by
  show (THEMES.foldl
      (fun c theme => SIZES.foldl
        (fun c size => CONTEXTS.foldl
          (fun c ctx => IconCache.scan_dir c fs (base ++ [theme, size, ctx])) c) c)
      a).scan_dir fs (base ++ ["pixmaps"]) = a
  have h1 : THEMES.foldl
      (fun c theme => SIZES.foldl
        (fun c size => CONTEXTS.foldl
          (fun c ctx => IconCache.scan_dir c fs (base ++ [theme, size, ctx])) c) c)
      a = a := by
    refine foldl_fixed _ _ _ ?_
    intro x theme _
    refine foldl_fixed _ _ _ ?_
    intro x2 size _
    refine foldl_fixed _ _ _ ?_
    intro x3 ctx _
    exact scan_dir_noIdx hn x3 _
  rw [h1]
  exact scan_dir_noIdx hn a _

/-- Claim C7: a file whose extension is missing or not in
{png, svg, xpm, ico, jpg, jpeg} is never indexed: scanning a filesystem none
of whose files (anywhere) carries an allow-listed extension leaves the empty
cache empty, so every lookup — in particular on such a file's full name or
stem — returns `none`. -/
theorem non_icon_ext_not_indexed (fs : FsNode) (hn : fs.noIdx = true)
    (e : IconEnv) (name : String) :
    (IconCache.scan ⟨[], []⟩ e fs).lookup name = none := by
  have hscan : IconCache.scan ⟨[], []⟩ e fs = ⟨[], []⟩ := by
    unfold IconCache.scan
    refine foldl_fixed _ _ _ ?_
    intro a base _
    exact scanBase_noIdx hn a base
  rw [hscan]
  rfl

/-- Witness for C7: a tree whose only files are `readme.txt` and an
extensionless `foo`, placed in an otherwise indexable location, yields no
binding for their names or stems. -/
theorem non_icon_ext_not_indexed_witness :
    ((IconCache.scan ⟨[], []⟩ envB
        (.dirL [("b", .dirL [("icons", .dirL [("cosmic", .dirL [("scalable", .dirL [("apps",
          .dirL [("readme.txt", .file), ("foo", .file)])])])])])])).lookup "readme.txt"
      = none) ∧
    ((IconCache.scan ⟨[], []⟩ envB
        (.dirL [("b", .dirL [("icons", .dirL [("cosmic", .dirL [("scalable", .dirL [("apps",
          .dirL [("readme.txt", .file), ("foo", .file)])])])])])])).lookup "readme"
      = none) ∧
    ((IconCache.scan ⟨[], []⟩ envB
        (.dirL [("b", .dirL [("icons", .dirL [("cosmic", .dirL [("scalable", .dirL [("apps",
          .dirL [("readme.txt", .file), ("foo", .file)])])])])])])).lookup "foo"
      = none) := by
  refine ⟨?_, ?_, ?_⟩ <;>
    exact non_icon_ext_not_indexed _ (by decide) envB _

/-- Claim C10: `IconCache::scan` walks only the subtrees
`base/theme/size/context` and `base/pixmaps` of each search base, never a
base directory itself: when every search base resolves to a flat directory
(children all plain files), the scan changes nothing; concretely a file at
`/usr/share/pixmaps/foo.png` is not indexed (second conjunct) while
`/usr/share/pixmaps/pixmaps/foo.png` is (third conjunct). -/
theorem pixmaps_base_not_walked :
    (∀ (e : IconEnv) (fs : FsNode) (c : IconCache),
      (∀ base ∈ icon_search_dirs e, flatAt fs base = true) →
      c.scan e fs = c) ∧
    ((IconCache.scan ⟨[], []⟩ envP
        (.dirL [("usr", .dirL [("share",
          .dirL [("pixmaps", .dirL [("foo.png", .file)])])])])).lookup "foo.png"
      = none) ∧
    ((IconCache.scan ⟨[], []⟩ envP
        (.dirL [("usr", .dirL [("share", .dirL [("pixmaps", .dirL [("pixmaps",
          .dirL [("foo.png", .file)])])])])])).lookup "foo.png"
      = some ["usr", "share", "pixmaps", "pixmaps", "foo.png"]) := by
  refine ⟨?_, by decide, by decide⟩
  intro e fs c hflat
  unfold IconCache.scan
  refine foldl_fixed _ _ _ ?_
  intro c' base hbase
  have hrd : ∀ (x : String) (rest : List String),
      readDir fs (base ++ x :: rest) = none := by
    intro x rest
    rw [readDir, resolve_append]
    cases hres : fs.resolve base with
    | none => rfl
    | some n =>
      show (match n.resolve (x :: rest) with
            | some (.dir es) => some es
            | _ => none) = none
      rw [resolve_cons]
      cases hc : n.child x with
      | none => rfl
      | some m =>
        have hm : m = FsNode.file := by
          have hf := hflat base hbase
          rw [flatAt, hres] at hf
          cases n with
          | file => exact absurd hc (by simp [FsNode.child])
          | denied => exact absurd hc (by simp [FsNode.child])
          | dir es =>
            exact allFiles_child es x hf m (by simpa [FsNode.child] using hc)
        subst hm
        cases rest with
        | nil => rfl
        | cons y l => rfl
  have hsd : ∀ (cc : IconCache) (x : String) (rest : List String),
      cc.scan_dir fs (base ++ x :: rest) = cc := by
    intro cc x rest
    rw [IconCache.scan_dir, hrd x rest]
  show (THEMES.foldl
      (fun c theme => SIZES.foldl
        (fun c size => CONTEXTS.foldl
          (fun c ctx => IconCache.scan_dir c fs (base ++ [theme, size, ctx])) c) c)
      c').scan_dir fs (base ++ ["pixmaps"]) = c'
  have h1 : THEMES.foldl
      (fun c theme => SIZES.foldl
        (fun c size => CONTEXTS.foldl
          (fun c ctx => IconCache.scan_dir c fs (base ++ [theme, size, ctx])) c) c)
      c' = c' := by
    refine foldl_fixed _ _ _ ?_
    intro x theme _
    refine foldl_fixed _ _ _ ?_
    intro x2 size _
    refine foldl_fixed _ _ _ ?_
    intro x3 ctx _
    exact hsd x3 theme [size, ctx]
  rw [h1]
  exact hsd c' "pixmaps" []

/-- Witness for C10's general conjunct: scanning a flat
`/usr/share/pixmaps` with a pre-existing cache changes nothing. -/
theorem pixmaps_base_not_walked_witness :
    IconCache.scan ⟨[("x", ["y"])], []⟩ envP
      (.dirL [("usr", .dirL [("share",
        .dirL [("pixmaps", .dirL [("foo.png", .file)])])])])
      = ⟨[("x", ["y"])], []⟩ :=
  pixmaps_base_not_walked.1 envP
    (.dirL [("usr", .dirL [("share",
      .dirL [("pixmaps", .dirL [("foo.png", .file)])])])])
    ⟨[("x", ["y"])], []⟩ (by decide)

/-- Claim C4: for each of the three themes, nine sizes and four contexts,
scanning a tree whose only file is `b/icons/theme/size/ctx/foo.svg` (with
`b/icons` a scanned base directory) makes both `lookup "foo.svg"` and
`lookup "foo"` return that file's path. -/
theorem scan_finds_theme_file :
    ∀ theme ∈ THEMES, ∀ size ∈ SIZES, ∀ ctx ∈ CONTEXTS,
      ((IconCache.scan ⟨[], []⟩ envB
          (.dirL [("b", .dirL [("icons", .dirL [(theme, .dirL [(size, .dirL [(ctx,
            .dirL [("foo.svg", .file)])])])])])])).lookup "foo.svg"
          = some ["b", "icons", theme, size, ctx, "foo.svg"]) ∧
      ((IconCache.scan ⟨[], []⟩ envB
          (.dirL [("b", .dirL [("icons", .dirL [(theme, .dirL [(size, .dirL [(ctx,
            .dirL [("foo.svg", .file)])])])])])])).lookup "foo"
          = some ["b", "icons", theme, size, ctx, "foo.svg"]) := by
  decide

/-- Witness for C4 at theme `cosmic`, size `scalable`, context `apps`. -/
theorem scan_finds_theme_file_witness :
    ((IconCache.scan ⟨[], []⟩ envB
        (.dirL [("b", .dirL [("icons", .dirL [("cosmic", .dirL [("scalable", .dirL [("apps",
          .dirL [("foo.svg", .file)])])])])])])).lookup "foo.svg"
        = some ["b", "icons", "cosmic", "scalable", "apps", "foo.svg"]) ∧
    ((IconCache.scan ⟨[], []⟩ envB
        (.dirL [("b", .dirL [("icons", .dirL [("cosmic", .dirL [("scalable", .dirL [("apps",
          .dirL [("foo.svg", .file)])])])])])])).lookup "foo"
        = some ["b", "icons", "cosmic", "scalable", "apps", "foo.svg"]) :=
  scan_finds_theme_file "cosmic" (by decide) "scalable" (by decide) "apps" (by decide)

theorem omin_none (b : Option Nat) : omin b none = b := by
  cases b <;> rfl

theorem omin_min (a : Option Nat) (p m : Nat) :
    omin (omin a (some p)) (some m) = omin a (some (min p m)) := by
  cases a with
  | none => rfl
  | some e =>
    show some (min (min e p) m) = some (min e (min p m))
    rw [Nat.min_assoc]

theorem textUpd_none (a : Option Nat) (b t : Option String) :
    textUpd a b none t = b := rfl

theorem firstMinText_cons_none {langs : List String} {c : MimeComment}
    (hs : commentScore langs c = none) (rest : List MimeComment) (m : Nat) :
    firstMinText langs (c :: rest) m = firstMinText langs rest m := by
  simp [firstMinText, List.find?_cons, hs]

theorem firstMinText_cons_self {langs : List String} {c : MimeComment} {p : Nat}
    (hs : commentScore langs c = some p) (rest : List MimeComment) :
    firstMinText langs (c :: rest) p = some (rustTrim c.text) := by
  simp [firstMinText, List.find?_cons, hs]

theorem firstMinText_cons_ne {langs : List String} {c : MimeComment} {p : Nat}
    (hs : commentScore langs c = some p) (rest : List MimeComment) (m : Nat)
    (hne : m ≠ p) :
    firstMinText langs (c :: rest) m = firstMinText langs rest m := by
  simp only [firstMinText, List.find?_cons, hs]
  have hb : (some p == some m) = false := by
    simp [Ne.symm hne]
  rw [hb]

theorem consider_best_score (langs : List String) (st : CommentState) (c : MimeComment) :
    (considerComment langs st c).best_score = omin st.best_score (commentScore langs c) := by
  simp only [considerComment, commentScore]
  by_cases he : (rustTrim c.text).data.isEmpty = true
  · rw [if_pos he, if_pos he]
    exact (omin_none st.best_score).symm
  · rw [if_neg he, if_neg he]
    cases c.lang with
    | none =>
      dsimp only
      exact (omin_none st.best_score).symm
    | some la =>
      dsimp only
      cases hf : langs.findIdx? (fun l => l == la) with
      | none =>
        dsimp only
        exact (omin_none st.best_score).symm
      | some p =>
        dsimp only
        cases hb : st.best_score with
        | none => rfl
        | some e =>
          dsimp only
          by_cases hle : e ≤ p
          · rw [if_pos hle, hb]
            show some e = some (min e p)
            rw [Nat.min_def, if_pos hle]
          · rw [if_neg hle]
            show some p = some (min e p)
            rw [Nat.min_def, if_neg hle]

theorem consider_best_text (langs : List String) (st : CommentState) (c : MimeComment) :
    (considerComment langs st c).best_text
      = textUpd st.best_score st.best_text (commentScore langs c)
          (some (rustTrim c.text)) := by
  simp only [considerComment, commentScore]
  by_cases he : (rustTrim c.text).data.isEmpty = true
  · rw [if_pos he, if_pos he]
    exact (textUpd_none st.best_score st.best_text (some (rustTrim c.text))).symm
  · rw [if_neg he, if_neg he]
    cases c.lang with
    | none => rfl
    | some la =>
      dsimp only
      cases hf : langs.findIdx? (fun l => l == la) with
      | none => rfl
      | some p =>
        dsimp only
        cases hb : st.best_score with
        | none => rfl
        | some e =>
          dsimp only
          by_cases hle : e ≤ p
          · rw [if_pos hle]
            show st.best_text
              = if p < e then some (rustTrim c.text) else st.best_text
            rw [if_neg (by omega : ¬ p < e)]
          · rw [if_neg hle]
            show some (rustTrim c.text)
              = if p < e then some (rustTrim c.text) else st.best_text
            rw [if_pos (by omega : p < e)]

theorem scoresMin_cons (x : Nat) (xs : List Nat) :
    scoresMin (x :: xs)
      = (match scoresMin xs with
         | none => some x
         | some m => some (min x m)) := rfl

theorem scoresMin_mem : ∀ (l : List Nat) (m : Nat), scoresMin l = some m → m ∈ l := by
  intro l
  induction l with
  | nil =>
    intro m h
    exact absurd h (by simp [scoresMin])
  | cons x xs ih =>
    intro m h
    rw [scoresMin_cons] at h
    cases hm : scoresMin xs with
    | none =>
      simp only [hm] at h
      injection h with h'
      subst h'
      exact List.mem_cons_self x xs
    | some mi =>
      simp only [hm] at h
      injection h with h'
      by_cases hxm : x ≤ mi
      · have hx : m = x := by omega
        rw [hx]
        exact List.mem_cons_self x xs
      · have hx : m = mi := by omega
        rw [hx]
        exact List.mem_cons_of_mem x (ih mi hm)

theorem fold_comments (langs : List String) :
    ∀ (l : List MimeComment) (st : CommentState),
      (l.foldl (considerComment langs) st).best_score
        = omin st.best_score (scoresMin (l.filterMap (commentScore langs))) ∧
      (l.foldl (considerComment langs) st).best_text
        = (match scoresMin (l.filterMap (commentScore langs)) with
           | none => st.best_text
           | some m =>
             textUpd st.best_score st.best_text (some m) (firstMinText langs l m)) := by
  intro l
  induction l with
  | nil =>
    intro st
    exact ⟨(omin_none st.best_score).symm, rfl⟩
  | cons c rest ih =>
    intro st
    rw [List.foldl_cons, List.filterMap_cons]
    have h1 := consider_best_score langs st c
    have h2 := consider_best_text langs st c
    obtain ⟨ih1, ih2⟩ := ih (considerComment langs st c)
    cases hs : commentScore langs c with
    | none =>
      rw [hs] at h1 h2
      rw [omin_none] at h1
      rw [textUpd_none] at h2
      dsimp only
      constructor
      · rw [ih1, h1]
      · rw [ih2]
        simp only [h1, h2, firstMinText_cons_none hs]
    | some p =>
      rw [hs] at h1 h2
      dsimp only
      constructor
      · rw [scoresMin_cons, ih1, h1]
        cases hm : scoresMin (rest.filterMap (commentScore langs)) with
        | none =>
          dsimp only
          rw [omin_none]
        | some m =>
          dsimp only
          rw [omin_min]
      · rw [scoresMin_cons, ih2]
        cases hm : scoresMin (rest.filterMap (commentScore langs)) with
        | none =>
          dsimp only
          rw [h2, firstMinText_cons_self hs]
        | some m =>
          dsimp only
          rw [h1, h2]
          cases hbs : st.best_score with
          | none =>
            show (if m < p then firstMinText langs rest m else some (rustTrim c.text))
              = firstMinText langs (c :: rest) (min p m)
            by_cases hmp : m < p
            · rw [if_pos hmp, show min p m = m from by omega,
                firstMinText_cons_ne hs rest m (by omega)]
            · rw [if_neg hmp, show min p m = p from by omega,
                firstMinText_cons_self hs]
          | some E =>
            show (if m < min E p then firstMinText langs rest m
                  else if p < E then some (rustTrim c.text) else st.best_text)
              = if min p m < E then firstMinText langs (c :: rest) (min p m)
                else st.best_text
            by_cases hmp : m < p
            · rw [show min p m = m from by omega,
                firstMinText_cons_ne hs rest m (by omega)]
              by_cases hmE : m < E
              · rw [if_pos (by omega : m < min E p), if_pos hmE]
              · rw [if_neg (by omega : ¬ m < min E p), if_neg hmE,
                  if_neg (by omega : ¬ p < E)]
            · rw [show min p m = p from by omega, firstMinText_cons_self hs]
              by_cases hpE : p < E
              · rw [if_neg (by omega : ¬ m < min E p), if_pos hpE]
              · rw [if_neg (by omega : ¬ m < min E p), if_neg hpE]

theorem consider_fallback_keep {langs : List String} {c : MimeComment}
    (h : c.lang = none → (rustTrim c.text).data = []) (st : CommentState) :
    (considerComment langs st c).fallback_unlocalized = st.fallback_unlocalized := by
  simp only [considerComment]
  by_cases he : (rustTrim c.text).data.isEmpty = true
  · rw [if_pos he]
  · rw [if_neg he]
    cases hl : c.lang with
    | none =>
      exfalso
      apply he
      rw [h hl]
      rfl
    | some la =>
      dsimp only
      cases hf : langs.findIdx? (fun l => l == la) with
      | none => rfl
      | some p =>
        dsimp only
        cases st.best_score with
        | none => rfl
        | some e =>
          dsimp only
          by_cases hle : e ≤ p
          · rw [if_pos hle]
          · rw [if_neg hle]

theorem fold_fallback (langs : List String) (l : List MimeComment) :
    ∀ (st : CommentState),
      (∀ c ∈ l, c.lang = none → (rustTrim c.text).data = []) →
      (l.foldl (considerComment langs) st).fallback_unlocalized
        = st.fallback_unlocalized := by
  induction l with
  | nil =>
    intro st _
    rfl
  | cons c rest ih =>
    intro st h
    rw [List.foldl_cons]
    rw [ih _ (fun x hx => h x (List.mem_cons_of_mem c hx))]
    exact consider_fallback_keep (h c (List.mem_cons_self c rest)) st

/-- Claim C5: with locale preference `["en","fr"]` the `en` comment
"Markdown text" wins over the `fr` one (first conjunct); in general, when
any comment of a mime-type element scores, the chosen description is the
trimmed text of the first comment whose preference-list position equals the
minimum position over all scoring comments (second conjunct); in the loop,
a strictly lower position replaces the current best while an equal or
higher one keeps the first encountered (third conjunct). -/
theorem comment_locale_selection :
    ((MimeCache.scan ⟨[]⟩ ["en", "fr"] []
        [some [⟨some "xml", some [⟨some "text/markdown",
          [⟨some "fr", "Texte"⟩, ⟨some "en", "Markdown text"⟩]⟩]⟩]]).lookup
      "text/markdown" = some "Markdown text") ∧
    (∀ (langs : List String) (comments : List MimeComment) (m : Nat),
      scoresMin (comments.filterMap (commentScore langs)) = some m →
      chooseComment langs comments = firstMinText langs comments m) ∧
    (∀ (langs : List String) (st : CommentState) (c : MimeComment)
       (posn existing : Nat),
      commentScore langs c = some posn → st.best_score = some existing →
      (posn < existing →
        considerComment langs st c
          = { st with best_score := some posn,
                      best_text := some (rustTrim c.text) }) ∧
      (existing ≤ posn → considerComment langs st c = st)) := by
  refine ⟨by decide, ?_, ?_⟩
  · intro langs comments m hm
    have hb := (fold_comments langs comments ⟨none, none, none⟩).2
    rw [hm] at hb
    have hmem : m ∈ comments.filterMap (commentScore langs) := scoresMin_mem _ _ hm
    rw [List.mem_filterMap] at hmem
    obtain ⟨c0, hc0, hfc0⟩ := hmem
    have hsome : (comments.find? (fun c => commentScore langs c == some m)).isSome := by
      rw [List.find?_isSome]
      exact ⟨c0, hc0, by rw [hfc0]; simp⟩
    obtain ⟨x, hx⟩ := Option.isSome_iff_exists.mp hsome
    have hb2 : (comments.foldl (considerComment langs) ⟨none, none, none⟩).best_text
        = firstMinText langs comments m := hb
    simp only [chooseComment]
    rw [hb2, firstMinText, hx]
    rfl
  · intro langs st c posn existing hs hb
    have he : ¬ (rustTrim c.text).data.isEmpty = true := by
      intro hemp
      rw [commentScore, if_pos hemp] at hs
      exact absurd hs (by simp)
    rw [commentScore, if_neg he] at hs
    cases hl : c.lang with
    | none =>
      rw [hl] at hs
      exact absurd hs (by simp)
    | some la =>
      rw [hl] at hs
      dsimp only at hs
      constructor
      · intro hlt
        simp only [considerComment]
        rw [if_neg he, hl]
        dsimp only
        rw [hs]
        dsimp only
        rw [hb]
        dsimp only
        rw [if_neg (by omega : ¬ existing ≤ posn)]
      · intro hle
        simp only [considerComment]
        rw [if_neg he, hl]
        dsimp only
        rw [hs]
        dsimp only
        rw [hb]
        dsimp only
        rw [if_pos hle]

/-- Witness for C5: the general selection fact at the fr/en example
(minimal score 0, the `en` comment is the first and only one scoring 0),
and the replace/keep step facts at concrete loop states. -/
theorem comment_locale_selection_witness :
    (chooseComment ["en", "fr"] [⟨some "fr", "Texte"⟩, ⟨some "en", "Markdown text"⟩]
      = firstMinText ["en", "fr"]
          [⟨some "fr", "Texte"⟩, ⟨some "en", "Markdown text"⟩] 0) ∧
    (considerComment ["en", "fr"] ⟨some 1, some "Texte", none⟩
        ⟨some "en", "Markdown text"⟩
      = ⟨some 0, some "Markdown text", none⟩) ∧
    (considerComment ["en", "fr"] ⟨some 0, some "A", none⟩ ⟨some "en", "B"⟩
      = ⟨some 0, some "A", none⟩) := by
  refine ⟨?_, ?_, ?_⟩
  · exact comment_locale_selection.2.1 ["en", "fr"]
      [⟨some "fr", "Texte"⟩, ⟨some "en", "Markdown text"⟩] 0 (by decide)
  · have h := (comment_locale_selection.2.2 ["en", "fr"] ⟨some 1, some "Texte", none⟩
      ⟨some "en", "Markdown text"⟩ 0 1 (by decide) (by decide)).1 (by omega)
    rw [h]
    decide
  · exact (comment_locale_selection.2.2 ["en", "fr"] ⟨some 0, some "A", none⟩
      ⟨some "en", "B"⟩ 0 0 (by decide) (by decide)).2 (by omega)

/-- Claim C6: with locale preference `["de"]`, matching neither `fr` nor
`en`, the unlocalized comment "Generic text" is the fallback (first
conjunct); and a mime-type element with no scoring localized comment and no
unlocalized comment of non-empty trimmed text contributes no description —
the map is left unchanged by the node (second conjunct). -/
theorem unlocalized_fallback :
    ((MimeCache.scan ⟨[]⟩ ["de"] []
        [some [⟨some "xml", some [⟨some "text/markdown",
          [⟨some "fr", "Texte"⟩, ⟨some "en", "Markdown text"⟩,
           ⟨none, "Generic text"⟩]⟩]⟩]]).lookup "text/markdown"
      = some "Generic text") ∧
    (∀ (langs : List String) (node : MimeNode),
      (∀ c ∈ node.comments, commentScore langs c = none ∧
        (c.lang = none → (rustTrim c.text).data = [])) →
      chooseComment langs node.comments = none ∧
      ∀ (aliases m : List (String × String)),
        processMimeNode langs aliases m node = m) := by
  refine ⟨by decide, ?_⟩
  intro langs node hyp
  have hsc : node.comments.filterMap (commentScore langs) = [] := by
    rw [List.filterMap_eq_nil_iff]
    intro c hc
    exact (hyp c hc).1
  have hbt : (node.comments.foldl (considerComment langs)
      ⟨none, none, none⟩).best_text = none := by
    have h := (fold_comments langs node.comments ⟨none, none, none⟩).2
    rw [hsc] at h
    exact h
  have hfb : (node.comments.foldl (considerComment langs)
      ⟨none, none, none⟩).fallback_unlocalized = none :=
    fold_fallback langs node.comments ⟨none, none, none⟩ (fun c hc => (hyp c hc).2)
  have hcc : chooseComment langs node.comments = none := by
    simp only [chooseComment]
    rw [hbt]
    exact hfb
  refine ⟨hcc, ?_⟩
  intro aliases m
  simp only [processMimeNode]
  cases node.typeAttr with
  | none => rfl
  | some mt =>
    dsimp only
    rw [hcc]

/-- Witness for C6's general conjunct: a node whose `fr` comment does not
match `["de"]` and whose unlocalized comment is whitespace-only inserts
nothing. -/
theorem unlocalized_fallback_witness :
    chooseComment ["de"] [⟨some "fr", "Texte"⟩, ⟨none, " "⟩] = none ∧
    processMimeNode ["de"] [] [("a", "b")]
      ⟨some "text/x", [⟨some "fr", "Texte"⟩, ⟨none, " "⟩]⟩ = [("a", "b")] := by
  refine ⟨?_, ?_⟩
  · exact (unlocalized_fallback.2 ["de"]
      ⟨some "text/x", [⟨some "fr", "Texte"⟩, ⟨none, " "⟩]⟩ (by decide)).1
  · exact (unlocalized_fallback.2 ["de"]
      ⟨some "text/x", [⟨some "fr", "Texte"⟩, ⟨none, " "⟩]⟩ (by decide)).2 [] [("a", "b")]

/-- Counterexample to claim C1: the alias loop of `get_mime_aliases` binds
`split_once`'s first field `alias` to the FIRST column and `canon` to the
second and inserts `canon -> alias`, so with the line
`text/markdown text/x-markdown` the table maps `text/x-markdown` to
`text/markdown` — the opposite direction of the claim. With a description
resolved for `text/markdown` from a package file and none declared for
`text/x-markdown`, `lookup "text/x-markdown"` returns `none`, not the
description the claim predicts. -/
theorem alias_direction_cex :
    ((MimeCache.scan ⟨[]⟩ []
        [some ["text/markdown text/x-markdown"]]
        [some [⟨some "xml", some [⟨some "text/markdown",
          [⟨none, "Markdown text"⟩]⟩]⟩]]).lookup "text/markdown"
      = some "Markdown text") ∧
    ((MimeCache.scan ⟨[]⟩ []
        [some ["text/markdown text/x-markdown"]]
        [some [⟨some "xml", some [⟨some "text/markdown",
          [⟨none, "Markdown text"⟩]⟩]⟩]]).lookup "text/x-markdown"
      = none) := by
  exact ⟨by decide, by decide⟩

/-- Claim C1 as amended: in the alias table built from the line
`text/markdown text/x-markdown`, the SECOND column (`text/x-markdown`) is
the canonical key and the first column the alias value; a description `d`
(non-empty after trimming) resolved for `text/x-markdown` from a package
file, with none declared for `text/markdown`, is propagated by
insert-if-absent so that both lookups return the trimmed `d`. -/
theorem alias_propagation_amended (d : String) (h : (rustTrim d).data ≠ []) :
    ((MimeCache.scan ⟨[]⟩ []
        [some ["text/markdown text/x-markdown"]]
        [some [⟨some "xml", some [⟨some "text/x-markdown", [⟨none, d⟩]⟩]⟩]]).lookup
      "text/x-markdown" = some (rustTrim d)) ∧
    ((MimeCache.scan ⟨[]⟩ []
        [some ["text/markdown text/x-markdown"]]
        [some [⟨some "xml", some [⟨some "text/x-markdown", [⟨none, d⟩]⟩]⟩]]).lookup
      "text/markdown" = some (rustTrim d)) := by
  have he : ¬ (rustTrim d).data.isEmpty = true := by
    cases hd : (rustTrim d).data with
    | nil => exact absurd hd h
    | cons a l => simp
  have hch : chooseComment [] [⟨none, d⟩] = some (rustTrim d) := by
    simp only [chooseComment, List.foldl_cons, List.foldl_nil, considerComment]
    rw [if_neg he]
  have hmain : (MimeCache.scan ⟨[]⟩ []
      [some ["text/markdown text/x-markdown"]]
      [some [⟨some "xml", some [⟨some "text/x-markdown",
        [⟨none, d⟩]⟩]⟩]]).mime_descriptions
      = [("text/x-markdown", rustTrim d), ("text/markdown", rustTrim d)] := by
    show (match chooseComment [] [⟨none, d⟩] with
          | none => ([] : List (String × String))
          | some desc =>
            match mget (get_mime_aliases [some ["text/markdown text/x-markdown"]])
                "text/x-markdown" with
            | some al => morInsert (morInsert [] "text/x-markdown" desc) al desc
            | none => morInsert [] "text/x-markdown" desc)
        = [("text/x-markdown", rustTrim d), ("text/markdown", rustTrim d)]
    rw [hch]
    rfl
  constructor
  · rw [MimeCache.lookup, hmain]
    rfl
  · rw [MimeCache.lookup, hmain]
    rfl

/-- Witness for the amended C1 at the concrete description
"Markdown text". -/
theorem alias_propagation_amended_witness :
    ((MimeCache.scan ⟨[]⟩ []
        [some ["text/markdown text/x-markdown"]]
        [some [⟨some "xml", some [⟨some "text/x-markdown",
          [⟨none, "Markdown text"⟩]⟩]⟩]]).lookup
      "text/x-markdown" = some (rustTrim "Markdown text")) ∧
    ((MimeCache.scan ⟨[]⟩ []
        [some ["text/markdown text/x-markdown"]]
        [some [⟨some "xml", some [⟨some "text/x-markdown",
          [⟨none, "Markdown text"⟩]⟩]⟩]]).lookup
      "text/markdown" = some (rustTrim "Markdown text")) :=
  alias_propagation_amended "Markdown text" (by decide)

end Launchedit
